import Mathlib

set_option maxRecDepth 100000

/-!
Verification of the `generic-ec-ristretto255` backend (files `src/lib.rs` and
`src/hd_wallet.rs`).

The development shallowly embeds the Rust code:

* a `curve25519_dalek::Scalar` is represented by its canonical value, a
  natural number strictly below the group order;
* byte strings (`&[u8]`, `[u8; N]`) are `List Nat` with entries below 256
  (entry bounds are only assumed where a statement needs them);
* the external `curve25519_dalek` reduction/arithmetic primitives are modelled
  by their documented mathematical semantics (reduction of the little-endian
  integer modulo the group order, field operations modulo the group order);
* fallible operations (`CtOption`, `Option`, `Result` + `expect`) become
  `Option`.

The two dispatch functions `scalar_from_le_bytes_mod_order_reducing_32_64`
and `scalar_from_be_bytes_mod_order_reducing_32_64` from `src/lib.rs` are
translated branch by branch, including the Horner fold over 64-byte blocks
and the recursive handling of the partial block.
-/

/-- The order of the ristretto255 group (the prime ℓ of Curve25519), the
modulus used by `curve25519_dalek::Scalar`. -/
def groupOrder : Nat :=
  7237005577332262213973186563042994240857116359379907606001950938285454250989

theorem groupOrder_pos : 0 < groupOrder := by decide

theorem one_lt_groupOrder : 1 < groupOrder := by decide

/-- Value of a byte string read as a little-endian integer (byte 0 is the
least significant). -/
def leNat : List Nat → Nat
  | [] => 0
  | b :: t => b + 256 * leNat t

/-- Value of a byte string read as a big-endian integer (byte 0 is the most
significant). -/
def beNat (l : List Nat) : Nat :=
  l.foldl (fun acc b => 256 * acc + b) 0

theorem beNat_foldl_init (l : List Nat) :
    ∀ a : Nat, l.foldl (fun acc b => 256 * acc + b) a =
      a * 256 ^ l.length + l.foldl (fun acc b => 256 * acc + b) 0 := by
  induction l with
  | nil => intro a; simp
  | cons b t ih =>
    intro a
    simp only [List.foldl_cons, List.length_cons]
    rw [ih (256 * a + b), ih (256 * 0 + b)]
    ring

theorem beNat_cons (b : Nat) (t : List Nat) :
    beNat (b :: t) = b * 256 ^ t.length + beNat t := by
  simp only [beNat, List.foldl_cons]
  rw [beNat_foldl_init t (256 * 0 + b)]
  ring_nf

theorem beNat_append (a b : List Nat) :
    beNat (a ++ b) = beNat a * 256 ^ b.length + beNat b := by
  induction a with
  | nil => simp [beNat]
  | cons x t ih =>
    simp only [List.cons_append, beNat_cons, List.length_append, ih]
    ring

theorem leNat_append (a b : List Nat) :
    leNat (a ++ b) = leNat a + 256 ^ a.length * leNat b := by
  induction a with
  | nil => simp [leNat]
  | cons x t ih =>
    rw [List.cons_append]
    simp only [leNat, ih, List.length_cons]
    ring

theorem leNat_replicate_zero (k : Nat) : leNat (List.replicate k 0) = 0 := by
  induction k with
  | zero => rfl
  | succ n ih => simp [List.replicate_succ, leNat, ih]

theorem beNat_replicate_zero (k : Nat) : beNat (List.replicate k 0) = 0 := by
  induction k with
  | zero => rfl
  | succ n ih => simp [List.replicate_succ, beNat_cons, ih]

theorem leNat_reverse (l : List Nat) : leNat l.reverse = beNat l := by
  induction l with
  | nil => rfl
  | cons b t ih =>
    rw [List.reverse_cons, leNat_append, beNat_cons, ih]
    simp [leNat, List.length_reverse]
    ring

theorem beNat_reverse (l : List Nat) : beNat l.reverse = leNat l := by
  rw [← leNat_reverse l.reverse, List.reverse_reverse]

theorem beNat_zero_pad (k : Nat) (l : List Nat) :
    beNat (List.replicate k 0 ++ l) = beNat l := by
  rw [beNat_append, beNat_replicate_zero]; ring

theorem leNat_zero_pad (k : Nat) (l : List Nat) :
    leNat (l ++ List.replicate k 0) = leNat l := by
  rw [leNat_append, leNat_replicate_zero]; ring

/-- Fuel-driven modular exponentiation by squaring (structurally recursive so
that the kernel can evaluate it on concrete 253-bit inputs). -/
def powModAux : Nat → Nat → Nat → Nat → Nat
  | 0, _, _, n => 1 % n
  | fuel + 1, a, e, n =>
    if e = 0 then 1 % n
    else
      let h := powModAux fuel a (e / 2) n
      if e % 2 = 0 then h * h % n else h * h % n * a % n

/-- Modular exponentiation `a ^ e % n` computed by repeated squaring. -/
def powMod (a e n : Nat) : Nat := powModAux (e + 1) a e n

theorem powModAux_eq (a n : Nat) :
    ∀ fuel e : Nat, e < fuel → powModAux fuel a e n = a ^ e % n := by
  intro fuel
  induction fuel with
  | zero => intro e he; omega
  | succ f ih =>
    intro e he
    by_cases h0 : e = 0
    · subst h0; simp [powModAux]
    · have hlt : e / 2 < f := by omega
      have hrec := ih (e / 2) hlt
      have hx := Nat.mod_modEq (a ^ (e / 2)) n
      have hxx : a ^ (e / 2) % n * (a ^ (e / 2) % n) ≡
          a ^ (e / 2) * a ^ (e / 2) [MOD n] := Nat.ModEq.mul hx hx
      by_cases hpar : e % 2 = 0
      · have hsq : a ^ e = a ^ (e / 2) * a ^ (e / 2) := by
          conv_lhs => rw [show e = e / 2 + e / 2 by omega]
          rw [pow_add]
        simp only [powModAux, if_neg h0, if_pos hpar]
        rw [hrec, hsq]
        exact hxx
      · have hsq : a ^ e = a ^ (e / 2) * a ^ (e / 2) * a := by
          conv_lhs => rw [show e = e / 2 + e / 2 + 1 by omega]
          rw [pow_add, pow_add, pow_one]
        simp only [powModAux, if_neg h0, if_neg hpar]
        rw [hrec, hsq]
        exact ((Nat.mod_modEq _ n).trans hxx).mul_right a

theorem powMod_eq (a e n : Nat) : powMod a e n = a ^ e % n :=
  powModAux_eq a n (e + 1) e (Nat.lt_succ_self e)

/-- Splitting a list into consecutive chunks of `n` elements (the final chunk
is shorter when `n` does not divide the length). Models the block structure
produced by Rust's `chunks_exact`/`rchunks_exact` iterators once the remainder
has been split off. -/
def chunksOf (n : Nat) (l : List Nat) : List (List Nat) :=
  if h : l = [] ∨ n = 0 then []
  else l.take n :: chunksOf n (l.drop n)
termination_by l.length
decreasing_by
  push_neg at h
  have hl : l.length ≠ 0 := fun hh => h.1 (List.eq_nil_of_length_eq_zero hh)
  simp only [List.length_drop]
  omega

theorem list_length_induction {P : List Nat → Prop}
    (h : ∀ l, (∀ m : List Nat, m.length < l.length → P m) → P l) :
    ∀ l, P l := by
  have key : ∀ k : Nat, ∀ l : List Nat, l.length ≤ k → P l := by
    intro k
    induction k with
    | zero =>
      intro l hl
      exact h l (fun m hm => absurd (Nat.lt_of_lt_of_le hm hl) (Nat.not_lt_zero _))
    | succ k ih =>
      intro l hl
      exact h l (fun m hm => ih m (by omega))
  exact fun l => key l.length l (Nat.le_refl _)

theorem chunksOf_nil (n : Nat) : chunksOf n [] = [] := by
  rw [chunksOf]; simp

theorem chunksOf_eq_cons (n : Nat) (l : List Nat) (hn : n ≠ 0) (hl : l ≠ []) :
    chunksOf n l = l.take n :: chunksOf n (l.drop n) := by
  rw [chunksOf]
  rw [dif_neg]
  push_neg
  exact ⟨hl, hn⟩

theorem chunksOf_join (n : Nat) (hn : n ≠ 0) :
    ∀ l : List Nat, (chunksOf n l).flatten = l := by
  apply list_length_induction
  intro l ih
  by_cases hl : l = []
  · subst hl; rw [chunksOf_nil]; rfl
  · rw [chunksOf_eq_cons n l hn hl, List.flatten_cons]
    have hlen : (l.drop n).length < l.length := by
      have : l.length ≠ 0 := fun hh => hl (List.eq_nil_of_length_eq_zero hh)
      simp only [List.length_drop]
      omega
    rw [ih (l.drop n) hlen, List.take_append_drop]

theorem chunksOf_mem_length (n : Nat) (hn : n ≠ 0) :
    ∀ l : List Nat, n ∣ l.length → ∀ c ∈ chunksOf n l, c.length = n := by
  apply list_length_induction
  intro l ih hdvd c hc
  by_cases hl : l = []
  · subst hl; rw [chunksOf_nil] at hc; cases hc
  · rw [chunksOf_eq_cons n l hn hl] at hc
    have hpos : 0 < l.length := List.length_pos.mpr hl
    have hnl : n ≤ l.length := Nat.le_of_dvd hpos hdvd
    rcases List.mem_cons.mp hc with hc1 | hc1
    · subst hc1; simp only [List.length_take]; omega
    · have hlen : (l.drop n).length < l.length := by
        simp only [List.length_drop]; omega
      have hdvd' : n ∣ (l.drop n).length := by
        simp only [List.length_drop]
        exact (Nat.dvd_sub' hdvd dvd_rfl)
      exact ih (l.drop n) hlen hdvd' c hc1

theorem chunksOf_ne_nil (n : Nat) (l : List Nat) (hn : n ≠ 0) (hl : l ≠ []) :
    chunksOf n l ≠ [] := by
  rw [chunksOf_eq_cons n l hn hl]
  exact List.cons_ne_nil _ _

theorem join_length_of_mem_length (n : Nat) :
    ∀ bs : List (List Nat), (∀ c ∈ bs, c.length = n) →
      bs.flatten.length = n * bs.length := by
  intro bs
  induction bs with
  | nil => intro _; simp
  | cons b t ih =>
    intro h
    simp only [List.flatten_cons, List.length_append, List.length_cons,
      h b (List.mem_cons_self b t), ih (fun c hc => h c (List.mem_cons_of_mem b hc))]
    ring

/-- Models the external `curve25519_dalek::Scalar::from_bytes_mod_order`:
reduction of 32 little-endian bytes modulo the group order. -/
def from_bytes_mod_order (b : List Nat) : Nat := leNat b % groupOrder

/-- Models the external `curve25519_dalek::Scalar::from_bytes_mod_order_wide`:
reduction of 64 little-endian bytes modulo the group order. -/
def from_bytes_mod_order_wide (b : List Nat) : Nat := leNat b % groupOrder

/-- Models the external `curve25519_dalek::Scalar::from_canonical_bytes`:
accepts 32 little-endian bytes exactly when they encode an integer below the
group order, i.e. the canonical encoding of a scalar. -/
def from_canonical_bytes (b : List Nat) : Option Nat :=
  if leNat b < groupOrder then some (leNat b) else none

/-- Models the external `curve25519_dalek::Scalar::invert` on a nonzero
scalar: inversion by Fermat exponentiation `x ^ (ℓ - 2) mod ℓ`, which is how
the library computes it. -/
def dalek_invert (x : Nat) : Nat := powMod x (groupOrder - 2) groupOrder

/-- Little-endian byte encoding of width `k` (first argument) of a natural
number; models `curve25519_dalek::Scalar::to_bytes` when `k = 32`. -/
def leBytesFix : Nat → Nat → List Nat
  | 0, _ => []
  | k + 1, n => n % 256 :: leBytesFix k (n / 256)

/-- Embeds `generic_ec_core::Additive::add` for `Scalar`
(`src/lib.rs` lines 159-163): field addition modulo the group order. -/
def scalar_add (a b : Nat) : Nat := (a + b) % groupOrder

/-- Embeds `generic_ec_core::Multiplicative::mul` for `Scalar × Scalar`
(`src/lib.rs` lines 176-183): field multiplication modulo the group order. -/
def scalar_mul (a b : Nat) : Nat := (a * b) % groupOrder

/-- Embeds `impl Reduce<32> for Scalar`, `from_be_array_mod_order`
(`src/lib.rs` lines 312-317): reverse the 32 bytes, then
`Scalar::from_bytes_mod_order`. -/
def from_be_array_mod_order32 (b : List Nat) : Nat :=
  from_bytes_mod_order b.reverse

/-- Embeds `impl Reduce<32> for Scalar`, `from_le_array_mod_order`
(`src/lib.rs` lines 319-321). -/
def from_le_array_mod_order32 (b : List Nat) : Nat :=
  from_bytes_mod_order b

/-- Embeds `impl Reduce<64> for Scalar`, `from_be_array_mod_order`
(`src/lib.rs` lines 324-329): reverse the 64 bytes, then
`Scalar::from_bytes_mod_order_wide`. -/
def from_be_array_mod_order64 (b : List Nat) : Nat :=
  from_bytes_mod_order_wide b.reverse

/-- Embeds `impl Reduce<64> for Scalar`, `from_le_array_mod_order`
(`src/lib.rs` lines 331-333). -/
def from_le_array_mod_order64 (b : List Nat) : Nat :=
  from_bytes_mod_order_wide b

/-- Embeds `scalar_from_le_bytes_mod_order_reducing_32_64` from `src/lib.rs`
(lines 336-390), instantiated at `S = Scalar` with `one = Scalar::ONE = 1`.
Branches follow the Rust `match` on the length: pad to 32 bytes (the Rust
code writes the bytes at the low indices of a zeroed array, which in
little-endian order means appending zeros), exactly 32, pad to 64, exactly
64, and the fold over 64-byte blocks. In the last branch `chunks_exact(64)`
takes full blocks from the front and leaves the trailing `len % 64` bytes as
its remainder; the remainder is reduced by a recursive call, `chunks.rev()`
iterates the full blocks last-to-first, and `Iterator::reduce` folds with
`acc = acc * two_to_512 + block` starting from the first element. -/
def scalar_from_le_bytes_mod_order_reducing_32_64 (bytes : List Nat) : Nat :=
  let len := bytes.length
  if _h1 : len ≤ 31 then
    from_le_array_mod_order32 (bytes ++ List.replicate (32 - len) 0)
  else if _h2 : len = 32 then
    from_le_array_mod_order32 bytes
  else if _h3 : len ≤ 63 then
    from_le_array_mod_order64 (bytes ++ List.replicate (64 - len) 0)
  else if _h4 : len = 64 then
    from_le_array_mod_order64 bytes
  else
    let two_to_512 := scalar_add (from_le_array_mod_order64 (List.replicate 64 255)) 1
    let remainder := bytes.drop (len - len % 64)
    let blocks := chunksOf 64 (bytes.take (len - len % 64))
    let vals :=
      (if remainder.isEmpty then []
       else [scalar_from_le_bytes_mod_order_reducing_32_64 remainder])
        ++ (blocks.reverse.map from_le_array_mod_order64)
    match vals with
    | [] => 0
    | v :: vs => vs.foldl (fun acc x => scalar_add (scalar_mul acc two_to_512) x) v
termination_by bytes.length
decreasing_by
  simp only [List.length_drop]
  omega

/-- Embeds `scalar_from_be_bytes_mod_order_reducing_32_64` from `src/lib.rs`
(lines 392-446), instantiated at `S = Scalar` with `one = Scalar::ONE = 1`.
Mirror image of the little-endian version: padding writes the bytes at the
high indices of a zeroed array (prepending zeros in big-endian order), and in
the last branch `rchunks_exact(64)` takes full blocks from the back, leaving
the leading `len % 64` bytes as its remainder; `chunks.rev()` then iterates
the full blocks first-to-last. -/
def scalar_from_be_bytes_mod_order_reducing_32_64 (bytes : List Nat) : Nat :=
  let len := bytes.length
  if _h1 : len ≤ 31 then
    from_be_array_mod_order32 (List.replicate (32 - len) 0 ++ bytes)
  else if _h2 : len = 32 then
    from_be_array_mod_order32 bytes
  else if _h3 : len ≤ 63 then
    from_be_array_mod_order64 (List.replicate (64 - len) 0 ++ bytes)
  else if _h4 : len = 64 then
    from_be_array_mod_order64 bytes
  else
    let two_to_512 := scalar_add (from_be_array_mod_order64 (List.replicate 64 255)) 1
    let remainder := bytes.take (len % 64)
    let blocks := chunksOf 64 (bytes.drop (len % 64))
    let vals :=
      (if remainder.isEmpty then []
       else [scalar_from_be_bytes_mod_order_reducing_32_64 remainder])
        ++ (blocks.map from_be_array_mod_order64)
    match vals with
    | [] => 0
    | v :: vs => vs.foldl (fun acc x => scalar_add (scalar_mul acc two_to_512) x) v
termination_by bytes.length
decreasing_by
  simp only [List.length_take]
  omega

/-- Embeds `IntegerEncoding::to_le_bytes` for `Scalar` (`src/lib.rs` lines
277-279): the canonical 32-byte little-endian encoding produced by
`curve25519_dalek::Scalar::to_bytes`. -/
def to_le_bytes (s : Nat) : List Nat := leBytesFix 32 s

/-- Embeds `IntegerEncoding::to_be_bytes` for `Scalar` (`src/lib.rs` lines
271-275): the little-endian encoding, reversed. -/
def to_be_bytes (s : Nat) : List Nat := (to_le_bytes s).reverse

/-- Embeds `IntegerEncoding::from_le_bytes_exact` for `Scalar` (`src/lib.rs`
lines 287-289): `curve25519_dalek::Scalar::from_canonical_bytes`. -/
def from_le_bytes_exact (b : List Nat) : Option Nat := from_canonical_bytes b

/-- Embeds `IntegerEncoding::from_be_bytes_exact` for `Scalar` (`src/lib.rs`
lines 281-285): reverse the bytes, then `from_le_bytes_exact`. -/
def from_be_bytes_exact (b : List Nat) : Option Nat :=
  from_le_bytes_exact b.reverse

/-- Embeds `IntegerEncoding::from_be_bytes_mod_order` for `Scalar`
(`src/lib.rs` lines 291-293). -/
def from_be_bytes_mod_order (bytes : List Nat) : Nat :=
  scalar_from_be_bytes_mod_order_reducing_32_64 bytes

/-- Embeds `IntegerEncoding::from_le_bytes_mod_order` for `Scalar`
(`src/lib.rs` lines 295-297). -/
def from_le_bytes_mod_order (bytes : List Nat) : Nat :=
  scalar_from_le_bytes_mod_order_reducing_32_64 bytes

/-- Embeds `impl Invertible for Scalar` (`src/lib.rs` lines 202-206):
`CtOption::new(x.invert(), !is_zero(x))`, i.e. the result is present exactly
when the scalar is nonzero, and then holds `curve25519_dalek`'s Fermat
inverse. -/
def invert (x : Nat) : Option Nat :=
  if x = 0 then none else some (dalek_invert x)

theorem from_be_array_mod_order32_eq (b : List Nat) :
    from_be_array_mod_order32 b = beNat b % groupOrder := by
  unfold from_be_array_mod_order32 from_bytes_mod_order
  rw [leNat_reverse]

theorem from_be_array_mod_order64_eq (b : List Nat) :
    from_be_array_mod_order64 b = beNat b % groupOrder := by
  unfold from_be_array_mod_order64 from_bytes_mod_order_wide
  rw [leNat_reverse]

theorem from_le_array_mod_order32_eq (b : List Nat) :
    from_le_array_mod_order32 b = leNat b % groupOrder := rfl

theorem from_le_array_mod_order64_eq (b : List Nat) :
    from_le_array_mod_order64 b = leNat b % groupOrder := rfl

theorem two_to_512_be_eq :
    scalar_add (from_be_array_mod_order64 (List.replicate 64 255)) 1 =
      2 ^ 512 % groupOrder := by decide

theorem two_to_512_le_eq :
    scalar_add (from_le_array_mod_order64 (List.replicate 64 255)) 1 =
      2 ^ 512 % groupOrder := by decide

theorem pow256_64 : (256 : Nat) ^ 64 = 2 ^ 512 := by decide

theorem horner_fold_be (T : Nat)
    (hT : T % groupOrder = 2 ^ 512 % groupOrder) :
    ∀ bs : List (List Nat), (∀ b ∈ bs, b.length = 64) →
      ∀ a c : Nat, a = c % groupOrder →
        List.foldl (fun acc x => scalar_add (scalar_mul acc T) x) a
            (bs.map from_be_array_mod_order64) =
          (c * 256 ^ bs.flatten.length + beNat bs.flatten) % groupOrder := by
  intro bs
  induction bs with
  | nil =>
    intro _ a c hac
    simpa [beNat] using hac
  | cons b t ih =>
    intro hb a c hac
    have hblen : b.length = 64 := hb b (List.mem_cons_self b t)
    have hstep :
        scalar_add (scalar_mul a T) (from_be_array_mod_order64 b) =
          (c * 2 ^ 512 + beNat b) % groupOrder := by
      unfold scalar_add scalar_mul
      rw [from_be_array_mod_order64_eq]
      have h1 : a * T ≡ c * 2 ^ 512 [MOD groupOrder] := by
        have ha : a ≡ c [MOD groupOrder] := by
          rw [hac]; exact Nat.mod_modEq c groupOrder
        exact Nat.ModEq.mul ha hT
      exact Nat.ModEq.add ((Nat.mod_modEq (a * T) groupOrder).trans h1)
        (Nat.mod_modEq (beNat b) groupOrder)
    rw [List.map_cons, List.foldl_cons, hstep]
    rw [ih (fun x hx => hb x (List.mem_cons_of_mem b hx)) _ _ rfl]
    have hflat : (b :: t).flatten = b ++ t.flatten := List.flatten_cons
    rw [hflat, beNat_append, List.length_append, hblen]
    congr 1
    rw [pow_add, ← pow256_64]
    ring

theorem horner_fold_le (T : Nat)
    (hT : T % groupOrder = 2 ^ 512 % groupOrder) :
    ∀ cs : List (List Nat), (∀ b ∈ cs, b.length = 64) →
      ∀ a c : Nat, a = c % groupOrder →
        List.foldl (fun acc x => scalar_add (scalar_mul acc T) x) a
            (cs.map from_le_array_mod_order64) =
          (leNat cs.reverse.flatten +
            256 ^ cs.reverse.flatten.length * c) % groupOrder := by
  intro cs
  induction cs with
  | nil =>
    intro _ a c hac
    simpa [leNat] using hac
  | cons b t ih =>
    intro hb a c hac
    have hblen : b.length = 64 := hb b (List.mem_cons_self b t)
    have hstep :
        scalar_add (scalar_mul a T) (from_le_array_mod_order64 b) =
          (c * 2 ^ 512 + leNat b) % groupOrder := by
      unfold scalar_add scalar_mul from_le_array_mod_order64 from_bytes_mod_order_wide
      have h1 : a * T ≡ c * 2 ^ 512 [MOD groupOrder] := by
        have ha : a ≡ c [MOD groupOrder] := by
          rw [hac]; exact Nat.mod_modEq c groupOrder
        exact Nat.ModEq.mul ha hT
      exact Nat.ModEq.add ((Nat.mod_modEq (a * T) groupOrder).trans h1)
        (Nat.mod_modEq (leNat b) groupOrder)
    rw [List.map_cons, List.foldl_cons, hstep]
    rw [ih (fun x hx => hb x (List.mem_cons_of_mem b hx)) _ _ rfl]
    have hflat : (b :: t).reverse.flatten = t.reverse.flatten ++ b := by
      rw [List.reverse_cons, List.flatten_append]
      simp
    rw [hflat, leNat_append, List.length_append, hblen]
    congr 1
    rw [pow_add, ← pow256_64]
    ring

theorem scalar_from_be_correct (bytes : List Nat) :
    scalar_from_be_bytes_mod_order_reducing_32_64 bytes =
      beNat bytes % groupOrder := by
  induction bytes using list_length_induction with
  | h bytes ih =>
  rw [scalar_from_be_bytes_mod_order_reducing_32_64]
  by_cases h1 : bytes.length ≤ 31
  · rw [dif_pos h1, from_be_array_mod_order32_eq, beNat_zero_pad]
  · rw [dif_neg h1]
    by_cases h2 : bytes.length = 32
    · rw [dif_pos h2, from_be_array_mod_order32_eq]
    · rw [dif_neg h2]
      by_cases h3 : bytes.length ≤ 63
      · rw [dif_pos h3, from_be_array_mod_order64_eq, beNat_zero_pad]
      · rw [dif_neg h3]
        by_cases h4 : bytes.length = 64
        · rw [dif_pos h4, from_be_array_mod_order64_eq]
        · rw [dif_neg h4]
          have h65 : 65 ≤ bytes.length := by omega
          have hT := two_to_512_be_eq
          have hTmod : (2 ^ 512 % groupOrder) % groupOrder =
              2 ^ 512 % groupOrder := Nat.mod_mod_of_dvd _ dvd_rfl
          set m := bytes.length % 64 with hm
          have hm64 : m < 64 := Nat.mod_lt _ (by omega)
          have hdvd : 64 ∣ (bytes.drop m).length := by
            simp only [List.length_drop]
            exact ⟨bytes.length / 64, by omega⟩
          rw [hT]
          by_cases hm0 : m = 0
          · have hbne : bytes ≠ [] := by
              intro hh
              rw [hh] at h65
              simp at h65
            simp only [hm0, List.take_zero, List.drop_zero, List.isEmpty_nil,
              if_true, List.nil_append]
            rw [chunksOf_eq_cons 64 bytes (by omega) hbne, List.map_cons]
            have hdvd' : (64 : Nat) ∣ bytes.length := ⟨bytes.length / 64, by omega⟩
            have hmem := chunksOf_mem_length 64 (by omega) bytes hdvd'
            rw [chunksOf_eq_cons 64 bytes (by omega) hbne] at hmem
            have htail : ∀ c ∈ chunksOf 64 (bytes.drop 64), c.length = 64 :=
              fun c hc => hmem c (List.mem_cons_of_mem _ hc)
            rw [from_be_array_mod_order64_eq]
            show List.foldl
                (fun acc x => scalar_add (scalar_mul acc (2 ^ 512 % groupOrder)) x)
                (beNat (List.take 64 bytes) % groupOrder)
                (List.map from_be_array_mod_order64 (chunksOf 64 (List.drop 64 bytes))) =
              beNat bytes % groupOrder
            rw [horner_fold_be (2 ^ 512 % groupOrder) hTmod
              (chunksOf 64 (bytes.drop 64)) htail _ (beNat (bytes.take 64)) rfl]
            rw [chunksOf_join 64 (by omega) (bytes.drop 64)]
            rw [← beNat_append, List.take_append_drop]
          · have hrem_ne : bytes.take m ≠ [] := by
              intro hh
              have := congrArg List.length hh
              simp only [List.length_take, List.length_nil] at this
              omega
            have hfalse : (bytes.take m).isEmpty = false := by
              cases hemp : (bytes.take m).isEmpty
              · rfl
              · exact absurd (List.isEmpty_iff.mp hemp) hrem_ne
            simp only [hfalse, Bool.false_eq_true, if_false, List.cons_append,
              List.nil_append]
            have hmem : ∀ c ∈ chunksOf 64 (bytes.drop m), c.length = 64 :=
              chunksOf_mem_length 64 (by omega) _ hdvd
            have hrlen : (bytes.take m).length < bytes.length := by
              simp only [List.length_take]
              omega
            rw [ih (bytes.take m) hrlen]
            show List.foldl
                (fun acc x => scalar_add (scalar_mul acc (2 ^ 512 % groupOrder)) x)
                (beNat (List.take m bytes) % groupOrder)
                (List.map from_be_array_mod_order64 (chunksOf 64 (List.drop m bytes))) =
              beNat bytes % groupOrder
            rw [horner_fold_be (2 ^ 512 % groupOrder) hTmod
              (chunksOf 64 (bytes.drop m)) hmem _ (beNat (bytes.take m)) rfl]
            rw [chunksOf_join 64 (by omega) (bytes.drop m)]
            rw [← beNat_append, List.take_append_drop]

theorem scalar_from_le_correct (bytes : List Nat) :
    scalar_from_le_bytes_mod_order_reducing_32_64 bytes =
      leNat bytes % groupOrder := by
  induction bytes using list_length_induction with
  | h bytes ih =>
  rw [scalar_from_le_bytes_mod_order_reducing_32_64]
  by_cases h1 : bytes.length ≤ 31
  · rw [dif_pos h1, from_le_array_mod_order32_eq, leNat_zero_pad]
  · rw [dif_neg h1]
    by_cases h2 : bytes.length = 32
    · rw [dif_pos h2, from_le_array_mod_order32_eq]
    · rw [dif_neg h2]
      by_cases h3 : bytes.length ≤ 63
      · rw [dif_pos h3, from_le_array_mod_order64_eq, leNat_zero_pad]
      · rw [dif_neg h3]
        by_cases h4 : bytes.length = 64
        · rw [dif_pos h4, from_le_array_mod_order64_eq]
        · rw [dif_neg h4]
          have h65 : 65 ≤ bytes.length := by omega
          have hT := two_to_512_le_eq
          have hTmod : (2 ^ 512 % groupOrder) % groupOrder =
              2 ^ 512 % groupOrder := Nat.mod_mod_of_dvd _ dvd_rfl
          set m := bytes.length % 64 with hm
          have hm64 : m < 64 := Nat.mod_lt _ (by omega)
          have hdvd : 64 ∣ (bytes.take (bytes.length - m)).length := by
            simp only [List.length_take]
            exact ⟨bytes.length / 64, by omega⟩
          rw [hT]
          by_cases hm0 : m = 0
          · have hbne : bytes ≠ [] := by
              intro hh
              rw [hh] at h65
              simp at h65
            have htake : bytes.take (bytes.length - m) = bytes := by
              rw [hm0, Nat.sub_zero, List.take_length]
            have hdrop : bytes.drop (bytes.length - m) = [] := by
              rw [hm0, Nat.sub_zero, List.drop_length]
            simp only [htake, hdrop, List.isEmpty_nil, if_true, List.nil_append]
            have hbs_ne : chunksOf 64 bytes ≠ [] :=
              chunksOf_ne_nil 64 bytes (by omega) hbne
            have hrev_ne : (chunksOf 64 bytes).reverse ≠ [] := by
              intro hh
              exact hbs_ne (by rwa [List.reverse_eq_nil_iff] at hh)
            obtain ⟨c0, ct, hrev⟩ := List.exists_cons_of_ne_nil hrev_ne
            have hdvd' : (64 : Nat) ∣ bytes.length := ⟨bytes.length / 64, by omega⟩
            have hmem := chunksOf_mem_length 64 (by omega) bytes hdvd'
            have hmem_ct : ∀ c ∈ ct, c.length = 64 := by
              intro c hc
              exact hmem c (List.mem_reverse.mp (hrev ▸ List.mem_cons_of_mem c0 hc))
            have hc0len : c0.length = 64 :=
              hmem c0 (List.mem_reverse.mp (hrev ▸ List.mem_cons_self c0 ct))
            rw [hrev, List.map_cons]
            show List.foldl
                (fun acc x => scalar_add (scalar_mul acc (2 ^ 512 % groupOrder)) x)
                (from_le_array_mod_order64 c0) (List.map from_le_array_mod_order64 ct) =
              leNat bytes % groupOrder
            rw [from_le_array_mod_order64_eq]
            rw [horner_fold_le (2 ^ 512 % groupOrder) hTmod ct hmem_ct _ (leNat c0) rfl]
            have hblocks : chunksOf 64 bytes = ct.reverse ++ [c0] := by
              rw [← List.reverse_reverse (chunksOf 64 bytes), hrev, List.reverse_cons]
            have hflat : bytes = ct.reverse.flatten ++ c0 := by
              conv_lhs => rw [← chunksOf_join 64 (by omega) bytes]
              rw [hblocks, List.flatten_append, List.flatten_cons, List.flatten_nil,
                List.append_nil]
            conv_rhs => rw [hflat]
            rw [leNat_append]
          · have hrem_ne : bytes.drop (bytes.length - m) ≠ [] := by
              intro hh
              have := congrArg List.length hh
              simp only [List.length_drop, List.length_nil] at this
              omega
            have hfalse : (bytes.drop (bytes.length - m)).isEmpty = false := by
              cases hemp : (bytes.drop (bytes.length - m)).isEmpty
              · rfl
              · exact absurd (List.isEmpty_iff.mp hemp) hrem_ne
            simp only [hfalse, Bool.false_eq_true, if_false, List.cons_append,
              List.nil_append]
            have hmem : ∀ c ∈ (chunksOf 64 (bytes.take (bytes.length - m))).reverse,
                c.length = 64 := by
              intro c hc
              exact chunksOf_mem_length 64 (by omega) _ hdvd c (List.mem_reverse.mp hc)
            have hrlen : (bytes.drop (bytes.length - m)).length < bytes.length := by
              simp only [List.length_drop]
              omega
            rw [ih (bytes.drop (bytes.length - m)) hrlen]
            show List.foldl
                (fun acc x => scalar_add (scalar_mul acc (2 ^ 512 % groupOrder)) x)
                (leNat (List.drop (bytes.length - m) bytes) % groupOrder)
                (List.map from_le_array_mod_order64
                  (chunksOf 64 (List.take (bytes.length - m) bytes)).reverse) =
              leNat bytes % groupOrder
            rw [horner_fold_le (2 ^ 512 % groupOrder) hTmod
              (chunksOf 64 (bytes.take (bytes.length - m))).reverse hmem _
              (leNat (bytes.drop (bytes.length - m))) rfl]
            rw [List.reverse_reverse, chunksOf_join 64 (by omega)]
            conv_rhs => rw [← List.take_append_drop (bytes.length - m) bytes]
            rw [leNat_append]

/-- Models a `curve25519_dalek::RistrettoPoint`. The ristretto255 group is
cyclic of prime order `groupOrder`, and every point operation in `src/lib.rs`
forwards to the external library, so a point is modelled by its discrete
logarithm with respect to the basepoint: a natural number below the order. -/
abbrev Point : Type := Nat

/-- Embeds `generic_ec_core::Additive::add` for `Point` (`src/lib.rs` lines
31-35): the group operation, forwarded to `RistrettoPoint` addition. -/
def point_add (a b : Point) : Point :=
  (a + b) % groupOrder

/-- Embeds `Multiplicative<CurveGenerator> for Scalar` (`src/lib.rs` lines
193-200): `RISTRETTO_BASEPOINT_TABLE * scalar`, the point whose discrete
logarithm is the scalar. -/
def generator_mul (s : Nat) : Point := s % groupOrder

/-- Embeds `impl OnCurve for Point` (`src/lib.rs` lines 65-70): the body is
`subtle::Choice::from(1)`, the constant true answer. -/
def is_on_curve (_ : Point) : Bool := true

/-- Embeds `hd_wallet::ExtendedPublicKey<Ristretto255>` as used by
`src/hd_wallet.rs`: a public point plus a 32-byte chain code. -/
structure ExtendedPublicKey where
  public_key : Point
  chain_code : List Nat

/-- Embeds `hd_wallet::DerivedShift<Ristretto255>` as produced by
`src/hd_wallet.rs`. -/
structure DerivedShift where
  shift : Nat
  child_public_key : ExtendedPublicKey

/-- Modelled from the spec: the external `hmac` crate's
`HmacSha512::new_from_slice`, absent from `src/`. Per the spec (§7), HMAC is
documented to accept keys of any length, so key setup succeeds for every
key; the successful result carries the key material. -/
def hmacSha512_new_from_slice (key : List Nat) : Option (List Nat) := some key

/-- Embeds `split_into_two_halves` (`src/hd_wallet.rs` lines 62-69): splits a
64-byte array into its first 32 and last 32 bytes. -/
def split_into_two_halves (i : List Nat) : List Nat × List Nat :=
  (i.take 32, i.drop 32)

/-- Embeds `NonHardenedIndex::to_be_bytes`: the 4-byte big-endian encoding of
a `u32` index. -/
def u32_to_be_bytes (i : Nat) : List Nat :=
  [i / 2 ^ 24 % 256, i / 2 ^ 16 % 256, i / 2 ^ 8 % 256, i % 256]

/-- Embeds `HdWallet::calculate_shift` (`src/hd_wallet.rs` lines 42-58):
split the 64-byte digest, reduce the left half big-endian via
`Scalar::from_be_bytes_mod_order`, add `generator * shift` to the parent
point, and use the right half verbatim as the child chain code. -/
def calculate_shift (parent_public_key : ExtendedPublicKey) (i : List Nat) :
    DerivedShift :=
  let halves := split_into_two_halves i
  let shift := from_be_bytes_mod_order halves.1
  let child_pk := point_add parent_public_key.public_key (generator_mul shift)
  { shift := shift
    child_public_key :=
      { public_key := child_pk, chain_code := halves.2 } }

/-- Embeds `HdWallet::derive_public_shift` (`src/hd_wallet.rs` lines 17-31).
The external HMAC-SHA512 computation is a parameter `hmac` taking the key
and the message; the external 32-byte compressed-point encoding
(`to_bytes(true)`) is a parameter `encode`. The message is the encoded
parent public key, one `0x00` byte, and the 4-byte big-endian child index.
The `expect` on HMAC key setup is modelled by mapping over the `Option`. -/
def derive_public_shift (hmac : List Nat → List Nat → List Nat)
    (encode : Point → List Nat) (parent_public_key : ExtendedPublicKey)
    (child_index : Nat) : Option DerivedShift :=
  (hmacSha512_new_from_slice parent_public_key.chain_code).map (fun _ =>
    let i := hmac parent_public_key.chain_code
      (encode parent_public_key.public_key ++ [0] ++ u32_to_be_bytes child_index)
    calculate_shift parent_public_key i)

/-- Product of prime powers described by a list of (base, exponent) pairs;
used to state verified factorizations inside primality certificates. -/
def prodPow : List (Nat × Nat) → Nat
  | [] => 1
  | (q, e) :: t => q ^ e * prodPow t

theorem natCast_powMod (p a e : Nat) :
    ((powMod a e p : Nat) : ZMod p) = (a : ZMod p) ^ e := by
  rw [powMod_eq, ZMod.natCast_mod, Nat.cast_pow]

theorem prime_of_dvd_prodPow :
    ∀ fs : List (Nat × Nat), (∀ pr ∈ fs, Nat.Prime pr.1) →
      ∀ q : Nat, Nat.Prime q → q ∣ prodPow fs → ∃ pr ∈ fs, q = pr.1 := by
  intro fs
  induction fs with
  | nil =>
    intro _ q hq hdvd
    simp only [prodPow] at hdvd
    exact absurd (Nat.dvd_one.mp hdvd) hq.one_lt.ne'
  | cons pr t ih =>
    intro hfs q hq hdvd
    simp only [prodPow] at hdvd
    rcases (Nat.Prime.dvd_mul hq).mp hdvd with h | h
    · have hd1 : q ∣ pr.1 := Nat.Prime.dvd_of_dvd_pow hq h
      have hq1 : q = pr.1 :=
        (Nat.prime_dvd_prime_iff_eq hq (hfs pr (List.mem_cons_self pr t))).mp hd1
      exact ⟨pr, List.mem_cons_self pr t, hq1⟩
    · obtain ⟨x, hx, hxx⟩ :=
        ih (fun r hr => hfs r (List.mem_cons_of_mem pr hr)) q hq h
      exact ⟨x, List.mem_cons_of_mem pr hx, hxx⟩

/-- Verified Lucas primality certificate checker: `p` is prime as soon as
`p - 1` factors as the given list of prime powers and the witness `a` has
order `p - 1` in `ZMod p`, with all the modular exponentiations carried out
by the executable `powMod`. -/
theorem lucas_cert (p a : Nat) (fs : List (Nat × Nat)) (hp : 1 < p)
    (hfs : ∀ pr ∈ fs, Nat.Prime pr.1)
    (hfact : p - 1 = prodPow fs)
    (hpow : powMod a (p - 1) p = 1 % p)
    (hall : ∀ pr ∈ fs, powMod a ((p - 1) / pr.1) p ≠ 1 % p) :
    Nat.Prime p := by
  apply lucas_primality p (a : ZMod p)
  · calc (a : ZMod p) ^ (p - 1)
        = ((powMod a (p - 1) p : Nat) : ZMod p) := (natCast_powMod p a (p - 1)).symm
      _ = ((1 % p : Nat) : ZMod p) := by rw [hpow]
      _ = 1 := by rw [ZMod.natCast_mod, Nat.cast_one]
  · intro q hq hqdvd
    obtain ⟨pr, hpr, hqeq⟩ :=
      prime_of_dvd_prodPow fs hfs q hq (hfact ▸ hqdvd)
    intro hcontra
    apply hall pr hpr
    have hcast : ((powMod a ((p - 1) / pr.1) p : Nat) : ZMod p) =
        ((1 % p : Nat) : ZMod p) := by
      rw [natCast_powMod, ZMod.natCast_mod, Nat.cast_one, ← hqeq]
      exact hcontra
    have hmodeq := (ZMod.natCast_eq_natCast_iff _ _ _).mp hcast
    have hlt1 : powMod a ((p - 1) / pr.1) p < p := by
      rw [powMod_eq]
      exact Nat.mod_lt _ (by omega)
    have hlt2 : 1 % p < p := Nat.mod_lt _ (by omega)
    have hfin := hmodeq
    unfold Nat.ModEq at hfin
    rw [Nat.mod_eq_of_lt hlt1, Nat.mod_eq_of_lt hlt2] at hfin
    exact hfin

theorem prime_2 : Nat.Prime 2 := by norm_num

theorem prime_3 : Nat.Prime 3 := by norm_num

theorem prime_5 : Nat.Prime 5 := by norm_num

theorem prime_7 : Nat.Prime 7 := by norm_num

theorem prime_11 : Nat.Prime 11 := by norm_num

theorem prime_17 : Nat.Prime 17 := by norm_num

theorem prime_23 : Nat.Prime 23 := by norm_num

theorem prime_41 : Nat.Prime 41 := by norm_num

theorem prime_43 : Nat.Prime 43 := by norm_num

theorem prime_73 : Nat.Prime 73 := by norm_num

theorem prime_269 : Nat.Prime 269 := by norm_num

theorem prime_1361 : Nat.Prime 1361 := by norm_num

theorem prime_2851 : Nat.Prime 2851 := by norm_num

theorem prime_30703 : Nat.Prime 30703 := by norm_num

theorem prime_82163 : Nat.Prime 82163 := by norm_num

theorem prime_132667 : Nat.Prime 132667 := by norm_num

theorem prime_137849 : Nat.Prime 137849 := by norm_num

theorem prime_531581 : Nat.Prime 531581 := by norm_num

theorem prime_1224481 : Nat.Prime 1224481 := by norm_num

theorem prime_307 : Nat.Prime 307 := by norm_num

theorem prime_5879 : Nat.Prime 5879 := by norm_num

theorem prime_34123 : Nat.Prime 34123 := by norm_num

theorem prime_409477 : Nat.Prime 409477 := by norm_num

theorem prime_14741173 : Nat.Prime 14741173 :=
  lucas_cert 14741173 2 [(2, 2), (3, 2), (409477, 1)]
    (by norm_num)
    (by
      intro pr hpr
      simp only [List.mem_cons, List.not_mem_nil, or_false] at hpr
      rcases hpr with rfl | rfl | rfl
      · exact prime_2
      · exact prime_3
      · exact prime_409477
      )
    (by decide) (by decide) (by decide)

theorem prime_58964693 : Nat.Prime 58964693 :=
  lucas_cert 58964693 2 [(2, 2), (14741173, 1)]
    (by norm_num)
    (by
      intro pr hpr
      simp only [List.mem_cons, List.not_mem_nil, or_false] at hpr
      rcases hpr with rfl | rfl
      · exact prime_2
      · exact prime_14741173
      )
    (by decide) (by decide) (by decide)

theorem prime_292386187 : Nat.Prime 292386187 :=
  lucas_cert 292386187 2 [(2, 1), (3, 4), (307, 1), (5879, 1)]
    (by norm_num)
    (by
      intro pr hpr
      simp only [List.mem_cons, List.not_mem_nil, or_false] at hpr
      rcases hpr with rfl | rfl | rfl | rfl
      · exact prime_2
      · exact prime_3
      · exact prime_307
      · exact prime_5879
      )
    (by decide) (by decide) (by decide)

theorem prime_213441916511 : Nat.Prime 213441916511 :=
  lucas_cert 213441916511 13 [(2, 1), (5, 1), (73, 1), (292386187, 1)]
    (by norm_num)
    (by
      intro pr hpr
      simp only [List.mem_cons, List.not_mem_nil, or_false] at hpr
      rcases hpr with rfl | rfl | rfl | rfl
      · exact prime_2
      · exact prime_5
      · exact prime_73
      · exact prime_292386187
      )
    (by decide) (by decide) (by decide)

theorem prime_1257559732178653 : Nat.Prime 1257559732178653 :=
  lucas_cert 1257559732178653 2 [(2, 2), (3, 1), (7, 1), (23, 1), (531581, 1), (1224481, 1)]
    (by norm_num)
    (by
      intro pr hpr
      simp only [List.mem_cons, List.not_mem_nil, or_false] at hpr
      rcases hpr with rfl | rfl | rfl | rfl | rfl | rfl
      · exact prime_2
      · exact prime_3
      · exact prime_7
      · exact prime_23
      · exact prime_531581
      · exact prime_1224481
      )
    (by decide) (by decide) (by decide)

theorem prime_4434155615661930479 : Nat.Prime 4434155615661930479 :=
  lucas_cert 4434155615661930479 17 [(2, 1), (41, 1), (43, 1), (1257559732178653, 1)]
    (by norm_num)
    (by
      intro pr hpr
      simp only [List.mem_cons, List.not_mem_nil, or_false] at hpr
      rcases hpr with rfl | rfl | rfl | rfl
      · exact prime_2
      · exact prime_41
      · exact prime_43
      · exact prime_1257559732178653
      )
    (by decide) (by decide) (by decide)

theorem prime_3044861653679985063343 : Nat.Prime 3044861653679985063343 :=
  lucas_cert 3044861653679985063343 5 [(2, 1), (3, 1), (11, 1), (30703, 1), (82163, 1), (132667, 1), (137849, 1)]
    (by norm_num)
    (by
      intro pr hpr
      simp only [List.mem_cons, List.not_mem_nil, or_false] at hpr
      rcases hpr with rfl | rfl | rfl | rfl | rfl | rfl | rfl
      · exact prime_2
      · exact prime_3
      · exact prime_11
      · exact prime_30703
      · exact prime_82163
      · exact prime_132667
      · exact prime_137849
      )
    (by decide) (by decide) (by decide)

theorem prime_172054593956031949258510691 : Nat.Prime 172054593956031949258510691 :=
  lucas_cert 172054593956031949258510691 2 [(2, 1), (5, 1), (1361, 1), (2851, 1), (4434155615661930479, 1)]
    (by norm_num)
    (by
      intro pr hpr
      simp only [List.mem_cons, List.not_mem_nil, or_false] at hpr
      rcases hpr with rfl | rfl | rfl | rfl | rfl
      · exact prime_2
      · exact prime_5
      · exact prime_1361
      · exact prime_2851
      · exact prime_4434155615661930479
      )
    (by decide) (by decide) (by decide)

theorem prime_198211423230930754013084525763697 : Nat.Prime 198211423230930754013084525763697 :=
  lucas_cert 198211423230930754013084525763697 5 [(2, 4), (3, 1), (23, 1), (58964693, 1), (3044861653679985063343, 1)]
    (by norm_num)
    (by
      intro pr hpr
      simp only [List.mem_cons, List.not_mem_nil, or_false] at hpr
      rcases hpr with rfl | rfl | rfl | rfl | rfl
      · exact prime_2
      · exact prime_3
      · exact prime_23
      · exact prime_58964693
      · exact prime_3044861653679985063343
      )
    (by decide) (by decide) (by decide)

theorem prime_19757330305831588566944191468367130476339 : Nat.Prime 19757330305831588566944191468367130476339 :=
  lucas_cert 19757330305831588566944191468367130476339 2 [(2, 1), (269, 1), (213441916511, 1), (172054593956031949258510691, 1)]
    (by norm_num)
    (by
      intro pr hpr
      simp only [List.mem_cons, List.not_mem_nil, or_false] at hpr
      rcases hpr with rfl | rfl | rfl | rfl
      · exact prime_2
      · exact prime_269
      · exact prime_213441916511
      · exact prime_172054593956031949258510691
      )
    (by decide) (by decide) (by decide)

theorem prime_276602624281642239937218680557139826668747 : Nat.Prime 276602624281642239937218680557139826668747 :=
  lucas_cert 276602624281642239937218680557139826668747 2 [(2, 1), (7, 1), (19757330305831588566944191468367130476339, 1)]
    (by norm_num)
    (by
      intro pr hpr
      simp only [List.mem_cons, List.not_mem_nil, or_false] at hpr
      rcases hpr with rfl | rfl | rfl
      · exact prime_2
      · exact prime_7
      · exact prime_19757330305831588566944191468367130476339
      )
    (by decide) (by decide) (by decide)

theorem groupOrder_prime : Nat.Prime groupOrder :=
  lucas_cert groupOrder 2 [(2, 2), (3, 1), (11, 1), (198211423230930754013084525763697, 1), (276602624281642239937218680557139826668747, 1)]
    (by decide)
    (by
      intro pr hpr
      simp only [List.mem_cons, List.not_mem_nil, or_false] at hpr
      rcases hpr with rfl | rfl | rfl | rfl | rfl
      · exact prime_2
      · exact prime_3
      · exact prime_11
      · exact prime_198211423230930754013084525763697
      · exact prime_276602624281642239937218680557139826668747
      )
    (by decide) (by decide) (by decide)

theorem from_be_bytes_mod_order_correct (b : List Nat) :
    from_be_bytes_mod_order b = beNat b % groupOrder :=
  scalar_from_be_correct b

theorem from_le_bytes_mod_order_correct (b : List Nat) :
    from_le_bytes_mod_order b = leNat b % groupOrder :=
  scalar_from_le_correct b

theorem leNat_leBytesFix : ∀ k n : Nat, leNat (leBytesFix k n) = n % 256 ^ k := by
  intro k
  induction k with
  | zero => intro n; simp [leBytesFix, leNat, Nat.mod_one]
  | succ k ih =>
    intro n
    simp only [leBytesFix, leNat, ih]
    have hpos : 0 < (256 : Nat) ^ k := pow_pos (by norm_num) k
    have hx : n / 256 % 256 ^ k < 256 ^ k := Nat.mod_lt _ hpos
    have hr : n % 256 < 256 := Nat.mod_lt _ (by norm_num)
    have hsum : 256 * (n / 256 % 256 ^ k) + n % 256 < 256 ^ (k + 1) := by
      have h2 : 256 * (n / 256 % 256 ^ k + 1) ≤ 256 * 256 ^ k :=
        Nat.mul_le_mul_left 256 hx
      rw [pow_succ]
      omega
    have hdecomp : n = 256 ^ (k + 1) * (n / 256 / 256 ^ k) +
        (256 * (n / 256 % 256 ^ k) + n % 256) := by
      have e1 := Nat.div_add_mod n 256
      have e2 := Nat.div_add_mod (n / 256) (256 ^ k)
      calc n = 256 * (n / 256) + n % 256 := e1.symm
        _ = 256 * (256 ^ k * (n / 256 / 256 ^ k) + n / 256 % 256 ^ k) + n % 256 := by
            rw [e2]
        _ = 256 ^ (k + 1) * (n / 256 / 256 ^ k) +
            (256 * (n / 256 % 256 ^ k) + n % 256) := by
            rw [pow_succ]; ring
    conv_rhs => rw [hdecomp]
    rw [Nat.mul_add_mod, Nat.mod_eq_of_lt hsum]
    omega

theorem groupOrder_lt_pow : groupOrder < 256 ^ 32 := by decide

theorem leNat_to_le_bytes (s : Nat) (hs : s < groupOrder) :
    leNat (to_le_bytes s) = s := by
  rw [to_le_bytes, leNat_leBytesFix]
  exact Nat.mod_eq_of_lt (lt_trans hs groupOrder_lt_pow)

/-- Correctness of the modelled `curve25519_dalek` inverse: for a nonzero
canonical scalar, multiplying by the Fermat inverse yields 1 modulo the
(prime) group order. -/
theorem dalek_invert_mul (x : Nat) (hx : x ≠ 0) (hlt : x < groupOrder) :
    dalek_invert x * x % groupOrder = 1 := by
  haveI : Fact (Nat.Prime groupOrder) := ⟨groupOrder_prime⟩
  have hx0 : (x : ZMod groupOrder) ≠ 0 := by
    rw [Ne, ZMod.natCast_zmod_eq_zero_iff_dvd]
    intro hdvd
    exact hx (Nat.eq_zero_of_dvd_of_lt hdvd hlt)
  have hfermat : (x : ZMod groupOrder) ^ (groupOrder - 1) = 1 :=
    ZMod.pow_card_sub_one_eq_one hx0
  have hv : dalek_invert x * x % groupOrder < groupOrder :=
    Nat.mod_lt _ groupOrder_pos
  have hcast : ((dalek_invert x * x % groupOrder : Nat) : ZMod groupOrder) =
      ((1 : Nat) : ZMod groupOrder) := by
    rw [ZMod.natCast_mod, Nat.cast_mul]
    unfold dalek_invert
    rw [natCast_powMod]
    rw [show groupOrder - 1 = groupOrder - 2 + 1 from by decide] at hfermat
    rw [pow_succ] at hfermat
    rw [Nat.cast_one, hfermat]
  have hmodeq := (ZMod.natCast_eq_natCast_iff _ _ _).mp hcast
  unfold Nat.ModEq at hmodeq
  rw [Nat.mod_eq_of_lt hv, Nat.mod_eq_of_lt one_lt_groupOrder] at hmodeq
  exact hmodeq

/-- The length ≥ 65 reduction algorithm exactly as claim C1 words it, for the
big-endian entry point: the input is split into consecutive 64-byte blocks
taken from the start, each block independently reduced, the blocks combined
most-significant-block-first by Horner's rule with base
`Reduce<64>(64 bytes of ones) + 1`, and the final partial block (fewer than
64 bytes, at the end of the input) handled as the least significant chunk,
reduced by recursive application of the algorithm and folded in last. -/
def c1_claimed_be (bytes : List Nat) : Nat :=
  let len := bytes.length
  let m := len % 64
  let two_to_512 := scalar_add (from_be_array_mod_order64 (List.replicate 64 255)) 1
  let blocks := chunksOf 64 (bytes.take (len - m))
  let vals := blocks.map from_be_array_mod_order64 ++
    (if m = 0 then [] else [from_be_bytes_mod_order (bytes.drop (len - m))])
  match vals with
  | [] => 0
  | v :: vs => vs.foldl (fun acc x => scalar_add (scalar_mul acc two_to_512) x) v

/-- The length ≥ 65 big-endian reduction as the amended claim C1 describes
it: the full 64-byte blocks are aligned to the end of the input, each reduced
independently and combined most-significant-block-first by Horner's rule with
base `Reduce<64>(64 bytes of ones) + 1`; the partial block (the leading
`len mod 64` bytes, the most significant chunk) is reduced by recursive
application of the algorithm and serves as the initial Horner accumulator. -/
def c1_amended_be (bytes : List Nat) : Nat :=
  let len := bytes.length
  let m := len % 64
  let two_to_512 := scalar_add (from_be_array_mod_order64 (List.replicate 64 255)) 1
  let blocks := chunksOf 64 (bytes.drop m)
  let vals := (if m = 0 then [] else [from_be_bytes_mod_order (bytes.take m)]) ++
    blocks.map from_be_array_mod_order64
  match vals with
  | [] => 0
  | v :: vs => vs.foldl (fun acc x => scalar_add (scalar_mul acc two_to_512) x) v

/-- The length ≥ 65 little-endian reduction as the amended claim C1 describes
it: full 64-byte blocks are taken from the front of the input, each reduced
independently and combined most-significant-block-first (i.e. last block
first) by Horner's rule; the partial block (the trailing `len mod 64` bytes,
the most significant chunk) is reduced by recursive application of the
algorithm and serves as the initial Horner accumulator. -/
def c1_amended_le (bytes : List Nat) : Nat :=
  let len := bytes.length
  let m := len % 64
  let two_to_512 := scalar_add (from_le_array_mod_order64 (List.replicate 64 255)) 1
  let blocks := chunksOf 64 (bytes.take (len - m))
  let vals := (if m = 0 then [] else [from_le_bytes_mod_order (bytes.drop (len - m))]) ++
    blocks.reverse.map from_le_array_mod_order64
  match vals with
  | [] => 0
  | v :: vs => vs.foldl (fun acc x => scalar_add (scalar_mul acc two_to_512) x) v

theorem c1_amended_be_eq (bytes : List Nat) (h65 : 65 ≤ bytes.length) :
    c1_amended_be bytes = from_be_bytes_mod_order bytes := by
  rw [c1_amended_be]
  conv_rhs => rw [from_be_bytes_mod_order,
    scalar_from_be_bytes_mod_order_reducing_32_64]
  rw [dif_neg (by omega : ¬bytes.length ≤ 31),
    dif_neg (by omega : ¬bytes.length = 32),
    dif_neg (by omega : ¬bytes.length ≤ 63),
    dif_neg (by omega : ¬bytes.length = 64)]
  by_cases hm0 : bytes.length % 64 = 0
  · simp only [hm0, List.take_zero, List.isEmpty_nil, if_true, List.drop_zero,
      List.nil_append]
  · have hne : bytes.take (bytes.length % 64) ≠ [] := by
      intro hh
      have := congrArg List.length hh
      simp only [List.length_take, List.length_nil] at this
      omega
    have hfalse : (bytes.take (bytes.length % 64)).isEmpty = false := by
      cases hemp : (bytes.take (bytes.length % 64)).isEmpty
      · rfl
      · exact absurd (List.isEmpty_iff.mp hemp) hne
    simp only [hm0, hfalse, Bool.false_eq_true, if_false, List.cons_append,
      List.nil_append]
    rfl

theorem c1_amended_le_eq (bytes : List Nat) (h65 : 65 ≤ bytes.length) :
    c1_amended_le bytes = from_le_bytes_mod_order bytes := by
  rw [c1_amended_le]
  conv_rhs => rw [from_le_bytes_mod_order,
    scalar_from_le_bytes_mod_order_reducing_32_64]
  rw [dif_neg (by omega : ¬bytes.length ≤ 31),
    dif_neg (by omega : ¬bytes.length = 32),
    dif_neg (by omega : ¬bytes.length ≤ 63),
    dif_neg (by omega : ¬bytes.length = 64)]
  by_cases hm0 : bytes.length % 64 = 0
  · simp only [hm0, Nat.sub_zero, List.take_length, List.drop_length,
      List.isEmpty_nil, if_true, List.nil_append]
  · have hne : bytes.drop (bytes.length - bytes.length % 64) ≠ [] := by
      intro hh
      have := congrArg List.length hh
      simp only [List.length_drop, List.length_nil] at this
      omega
    have hfalse : (bytes.drop (bytes.length - bytes.length % 64)).isEmpty = false := by
      cases hemp : (bytes.drop (bytes.length - bytes.length % 64)).isEmpty
      · rfl
      · exact absurd (List.isEmpty_iff.mp hemp) hne
    simp only [hm0, hfalse, Bool.false_eq_true, if_false, List.cons_append,
      List.nil_append]
    rfl

/-- Claim C1 as stated is false on the code: on the 65-byte big-endian input
`0x01` followed by 64 zero bytes, the algorithm the claim describes (final
partial block treated as the least significant chunk) disagrees with
`from_be_bytes_mod_order`, which treats the leading partial block as the most
significant chunk. -/
theorem c1_counterexample :
    c1_claimed_be (1 :: List.replicate 64 0) ≠
      from_be_bytes_mod_order (1 :: List.replicate 64 0) := by
  have hchunks : chunksOf 64 (1 :: List.replicate 63 0) =
      [1 :: List.replicate 63 0] := by
    rw [chunksOf_eq_cons 64 (1 :: List.replicate 63 0) (by omega) (by simp),
      show List.drop 64 (1 :: List.replicate 63 0) = [] from by decide,
      chunksOf_nil,
      show List.take 64 (1 :: List.replicate 63 0) = 1 :: List.replicate 63 0
        from by decide]
  have hbody : c1_claimed_be (1 :: List.replicate 64 0) =
      match (chunksOf 64 (1 :: List.replicate 63 0)).map from_be_array_mod_order64 ++
          [from_be_bytes_mod_order [0]] with
      | [] => 0
      | v :: vs => vs.foldl (fun acc x => scalar_add (scalar_mul acc
          (scalar_add (from_be_array_mod_order64 (List.replicate 64 255)) 1)) x) v := rfl
  have hrem : from_be_bytes_mod_order [0] = 0 := by
    rw [from_be_bytes_mod_order_correct]
    decide
  have hcode : from_be_bytes_mod_order (1 :: List.replicate 64 0) =
      2 ^ 512 % groupOrder := by
    rw [from_be_bytes_mod_order_correct,
      show beNat (1 :: List.replicate 64 0) = 2 ^ 512 from by decide]
  rw [hbody, hchunks, hrem, hcode]
  simp only [List.map_cons, List.map_nil, List.cons_append, List.nil_append,
    List.foldl_cons, List.foldl_nil]
  rw [two_to_512_be_eq, from_be_array_mod_order64_eq,
    show beNat (1 :: List.replicate 63 0) = 2 ^ 504 from by decide]
  decide

/-- C1 (amended): for every byte string of length ≥ 65, both reduction entry
points split the input into 64-byte blocks combined most-significant-first by
Horner's rule `acc = acc * 2^512 + block` with `2^512 mod order` obtained as
`Reduce<64>` of 64 bytes of all-ones plus one, each full block independently
reduced; the final partial block of fewer than 64 bytes is handled as the
most significant chunk — the initial Horner accumulator — via recursive
application of the same algorithm (for big-endian input it is the leading
`len mod 64` bytes, for little-endian input the trailing ones). -/
theorem c1_theorem (bytes : List Nat) (h65 : 65 ≤ bytes.length) :
    from_be_bytes_mod_order bytes = c1_amended_be bytes ∧
    from_le_bytes_mod_order bytes = c1_amended_le bytes :=
  ⟨(c1_amended_be_eq bytes h65).symm, (c1_amended_le_eq bytes h65).symm⟩

theorem c1_witness :
    from_be_bytes_mod_order (List.replicate 129 3) =
      c1_amended_be (List.replicate 129 3) ∧
    from_le_bytes_mod_order (List.replicate 129 3) =
      c1_amended_le (List.replicate 129 3) :=
  c1_theorem (List.replicate 129 3) (by decide)

/-- C2: on inputs of each boundary length 0, 31, 32, 33, 63, 64, 65, 129,
`from_be_bytes_mod_order` returns the big-endian integer value of the input
reduced modulo the group order. -/
theorem c2_theorem (bytes : List Nat)
    (h : bytes.length ∈ [0, 31, 32, 33, 63, 64, 65, 129]) :
    from_be_bytes_mod_order bytes = beNat bytes % groupOrder :=
  from_be_bytes_mod_order_correct bytes

theorem c2_witness :
    from_be_bytes_mod_order (List.replicate 129 7) =
      beNat (List.replicate 129 7) % groupOrder :=
  c2_theorem (List.replicate 129 7) (by decide)

/-- Claim C4 as stated is false: prepending an all-zero 64-byte block on the
high-order side does not change the reduction; on the big-endian input `[1]`
the padded input reduces to the same scalar. -/
theorem c4_counterexample :
    from_be_bytes_mod_order (List.replicate 64 0 ++ [1]) =
      from_be_bytes_mod_order [1] := by
  rw [from_be_bytes_mod_order_correct, from_be_bytes_mod_order_correct,
    beNat_zero_pad]

/-- C4 (amended): padding with all-zero 64-byte blocks on the high-order side
IS equivalent under reduction: for every byte string and every number of
prepended zero blocks (leading blocks for big-endian input, trailing ones for
little-endian input), the reduced scalar is unchanged. -/
theorem c4_theorem (b : List Nat) (k : Nat) :
    from_be_bytes_mod_order (List.replicate (64 * k) 0 ++ b) =
      from_be_bytes_mod_order b ∧
    from_le_bytes_mod_order (b ++ List.replicate (64 * k) 0) =
      from_le_bytes_mod_order b := by
  constructor
  · rw [from_be_bytes_mod_order_correct, from_be_bytes_mod_order_correct,
      beNat_zero_pad]
  · rw [from_le_bytes_mod_order_correct, from_le_bytes_mod_order_correct,
      leNat_zero_pad]

/-- C7: for 32- and 64-byte strings the big-endian reduction equals the
little-endian reduction of the byte-reversed string, both through the length
dispatch and through the underlying `Reduce<32>`/`Reduce<64>`
implementations. -/
theorem c7_theorem (b : List Nat) (h : b.length = 32 ∨ b.length = 64) :
    from_be_bytes_mod_order b = from_le_bytes_mod_order b.reverse ∧
    from_be_array_mod_order32 b = from_le_array_mod_order32 b.reverse ∧
    from_be_array_mod_order64 b = from_le_array_mod_order64 b.reverse := by
  refine ⟨?_, rfl, rfl⟩
  rw [from_be_bytes_mod_order_correct, from_le_bytes_mod_order_correct,
    leNat_reverse]

theorem c7_witness :
    from_be_bytes_mod_order (List.replicate 32 5) =
      from_le_bytes_mod_order (List.replicate 32 5).reverse ∧
    from_be_array_mod_order32 (List.replicate 32 5) =
      from_le_array_mod_order32 (List.replicate 32 5).reverse ∧
    from_be_array_mod_order64 (List.replicate 32 5) =
      from_le_array_mod_order64 (List.replicate 32 5).reverse :=
  c7_theorem (List.replicate 32 5) (Or.inl (by decide))

/-- C9: `is_on_curve` returns the constant true `Choice` for every point
value, however obtained; it performs no validation. -/
theorem c9_theorem (p : Point) : is_on_curve p = true := rfl

/-- C10: on the empty byte string both `from_be_bytes_mod_order` and
`from_le_bytes_mod_order` return the zero scalar. -/
theorem c10_theorem :
    from_be_bytes_mod_order [] = 0 ∧ from_le_bytes_mod_order [] = 0 := by
  constructor
  · rw [from_be_bytes_mod_order_correct]; decide
  · rw [from_le_bytes_mod_order_correct]; decide

/-- C8: HMAC-SHA512 accepts keys of any length, so constructing the keyed
instance from the 32-byte parent chain code never fails and
`derive_public_shift` always produces a value: the `expect` branch is
unreachable. -/
theorem c8_theorem (hmac : List Nat → List Nat → List Nat)
    (encode : Point → List Nat) (parent : ExtendedPublicKey) (idx : Nat) :
    (derive_public_shift hmac encode parent idx).isSome = true := rfl

/-- C3: for every parent extended public key and every non-hardened index,
the derived shift is `Reduce<32>` applied big-endian to the first 32 bytes of
the HMAC-SHA512 digest of (32-byte compressed parent key ‖ 0x00 ‖ 4-byte
big-endian index) keyed by the parent chain code, the child public key is
the parent key plus generator times the shift, and the child chain code is
the last 32 bytes of the digest verbatim. -/
theorem c3_theorem (hmac : List Nat → List Nat → List Nat)
    (encode : Point → List Nat) (parent : ExtendedPublicKey) (idx : Nat)
    (hidx : idx < 2 ^ 31)
    (hlen : (hmac parent.chain_code
      (encode parent.public_key ++ [0] ++ u32_to_be_bytes idx)).length = 64) :
    derive_public_shift hmac encode parent idx =
      some
        { shift := from_be_array_mod_order32 ((hmac parent.chain_code
            (encode parent.public_key ++ [0] ++ u32_to_be_bytes idx)).take 32)
          child_public_key :=
            { public_key := point_add parent.public_key (generator_mul
                (from_be_array_mod_order32 ((hmac parent.chain_code
                  (encode parent.public_key ++ [0] ++ u32_to_be_bytes idx)).take 32)))
              chain_code := (hmac parent.chain_code
                (encode parent.public_key ++ [0] ++ u32_to_be_bytes idx)).drop 32 } } := by
  set d := hmac parent.chain_code
    (encode parent.public_key ++ [0] ++ u32_to_be_bytes idx) with hd
  have htakelen : (d.take 32).length = 32 := by
    simp [List.length_take, hlen]
  have hshift : from_be_bytes_mod_order (d.take 32) =
      from_be_array_mod_order32 (d.take 32) := by
    rw [from_be_bytes_mod_order, scalar_from_be_bytes_mod_order_reducing_32_64,
      dif_neg (by omega : ¬(d.take 32).length ≤ 31),
      dif_pos htakelen]
  show some (calculate_shift parent d) = _
  simp only [calculate_shift, split_into_two_halves]
  rw [hshift]

theorem c3_witness :
    derive_public_shift (fun _ _ => List.range 64) (fun _ => List.replicate 32 9)
      ⟨3, List.replicate 32 1⟩ 0 =
      some
        { shift := from_be_array_mod_order32 ((List.range 64).take 32)
          child_public_key :=
            { public_key := point_add 3 (generator_mul
                (from_be_array_mod_order32 ((List.range 64).take 32)))
              chain_code := (List.range 64).drop 32 } } :=
  c3_theorem (fun _ _ => List.range 64) (fun _ => List.replicate 32 9)
    ⟨3, List.replicate 32 1⟩ 0 (by decide) (by decide)

/-- C5: `invert` returns the empty result exactly on the zero scalar, and on
every nonzero scalar returns the multiplicative inverse: the contained value
times the input is one. -/
theorem c5_theorem (s : Nat) (hs : s < groupOrder) :
    (invert s = none ↔ s = 0) ∧
    ∀ y, invert s = some y → scalar_mul y s = 1 := by
  constructor
  · constructor
    · intro h
      by_contra hne
      rw [invert, if_neg hne] at h
      cases h
    · intro h
      rw [invert, if_pos h]
  · intro y hy
    by_cases h0 : s = 0
    · rw [invert, if_pos h0] at hy
      cases hy
    · rw [invert, if_neg h0] at hy
      have hy' : y = dalek_invert s := (Option.some.injEq _ _).mp hy.symm
      rw [hy', scalar_mul]
      exact dalek_invert_mul s h0 hs

theorem c5_witness :
    invert 2 = some ((groupOrder + 1) / 2) ∧
    scalar_mul ((groupOrder + 1) / 2) 2 = 1 := by
  have h2 : invert 2 = some ((groupOrder + 1) / 2) := by decide
  exact ⟨h2, (c5_theorem 2 (by decide)).2 _ h2⟩

/-- C6: the exact byte decoders return the empty result precisely when the
bytes encode an integer at or above the group order, decoding inverts
encoding on every scalar, and re-encoding the decoded scalar reproduces the
original bytes. -/
theorem c6_theorem (s : Nat) (hs : s < groupOrder) :
    from_le_bytes_exact (to_le_bytes s) = some s ∧
    from_be_bytes_exact (to_be_bytes s) = some s ∧
    (∀ y, from_le_bytes_exact (to_le_bytes s) = some y →
      to_le_bytes y = to_le_bytes s) ∧
    (∀ b : List Nat, (from_le_bytes_exact b = none ↔ groupOrder ≤ leNat b) ∧
      (from_be_bytes_exact b = none ↔ groupOrder ≤ beNat b)) := by
  have hle : from_le_bytes_exact (to_le_bytes s) = some s := by
    rw [from_le_bytes_exact, from_canonical_bytes, leNat_to_le_bytes s hs,
      if_pos hs]
  refine ⟨hle, ?_, ?_, ?_⟩
  · rw [from_be_bytes_exact, to_be_bytes, List.reverse_reverse]
    exact hle
  · intro y hy
    rw [hle] at hy
    rw [(Option.some.injEq _ _).mp hy.symm]
  · intro b
    constructor
    · rw [from_le_bytes_exact, from_canonical_bytes]
      constructor
      · intro h
        by_contra hlt
        push_neg at hlt
        rw [if_pos hlt] at h
        cases h
      · intro h
        rw [if_neg (by omega)]
    · rw [from_be_bytes_exact, from_le_bytes_exact, from_canonical_bytes,
        leNat_reverse]
      constructor
      · intro h
        by_contra hlt
        push_neg at hlt
        rw [if_pos hlt] at h
        cases h
      · intro h
        rw [if_neg (by omega)]

theorem c6_witness :
    from_le_bytes_exact (to_le_bytes 5) = some 5 ∧
    from_be_bytes_exact (to_be_bytes 5) = some 5 ∧
    (from_le_bytes_exact (List.replicate 32 255) = none ↔
      groupOrder ≤ leNat (List.replicate 32 255)) := by
  obtain ⟨h1, h2, _, h4⟩ := c6_theorem 5 (by decide)
  exact ⟨h1, h2, (h4 (List.replicate 32 255)).1⟩
